import Mathlib

/-!
Verification of the `promptkit dump` collection and tree-rendering pipeline
(src/promptkit/src/main.rs).

The shallow embedding models:
* relative paths as Lean `String`s (Rust `String` holds UTF-8 text; Rust's
  byte-lexicographic comparison of valid UTF-8 strings coincides with
  codepoint-lexicographic comparison, which `bytesLe` implements);
* the filesystem seen by the `ignore` walker as an `FSEntry` tree, where each
  entry records what the walker and the syscalls report for it: entry file
  type, `metadata()` result, `fs::read` result, and whether some
  version-control ignore rule excludes it;
* `collect_files` as the walk (with pruning by `should_include` and
  version-control rules), the per-entry loop body (`processEvent`), and the
  final sort;
* `TreeNode` (Rust `BTreeMap<String, TreeNode>`) as a key-sorted association
  list, `TreeNode::insert`, `build_file_tree` and `render_tree` verbatim;
* the per-file fenced section of `run_dump` (lines 116-124).
-/

/-! ### Path strings -/

/-- Lexicographic comparison of character lists by codepoint, as Rust's
`Ord for String` compares byte slices (equal on valid UTF-8 text). -/
def bytesLe : List Char → List Char → Bool
  | [], _ => true
  | _ :: _, [] => false
  | a :: as, b :: bs =>
    if a.toNat < b.toNat then true
    else if b.toNat < a.toNat then false
    else bytesLe as bs

/-- Split a character list at `'/'` separators, as `Path::components` splits a
relative path (`splitSlashAux rest acc` carries the current component
reversed in `acc`). -/
def splitSlashAux : List Char → List Char → List String
  | [], acc => [String.mk acc.reverse]
  | c :: rest, acc =>
    if c = '/' then String.mk acc.reverse :: splitSlashAux rest []
    else splitSlashAux rest (c :: acc)

def splitSlash (s : String) : List String := splitSlashAux s.data []

/-- `Path::new(p).components()` for a relative path `p`: split on `/`,
drop empty components, and drop `.` components except in leading position. -/
def pathComponents (p : String) : List String :=
  match (splitSlash p).filter (fun s => s ≠ "") with
  | [] => []
  | c0 :: rest => c0 :: rest.filter (fun s => s ≠ ".")

/-- Join path components with `/`, as `to_relative` renders the path of an
entry reached from the root through the named components (strip the root
prefix, display with separators). The root itself has components `[]` and
relative path `""`. -/
def joinComps : List String → String
  | [] => ""
  | c :: cs => cs.foldl (fun acc n => acc ++ "/" ++ n) c

/-! ### UTF-8 validation (`String::from_utf8`) -/

/-- A UTF-8 continuation byte (`0x80..=0xBF`). -/
def utf8Cont (b : Nat) : Bool := 0x80 ≤ b && b ≤ 0xBF

/-- Decode a byte list as UTF-8 codepoints, or `none` on any invalid sequence
(overlong forms, surrogates, out-of-range codepoints, truncated sequences),
exactly the sequences `String::from_utf8` rejects. -/
def utf8DecodeCodepoints : List Nat → Option (List Nat)
  | [] => some []
  | b0 :: bs =>
    if b0 < 0x80 then
      (utf8DecodeCodepoints bs).map (fun t => b0 :: t)
    else if b0 < 0xC2 then none
    else if b0 ≤ 0xDF then
      match bs with
      | b1 :: bs1 =>
        if utf8Cont b1 then
          (utf8DecodeCodepoints bs1).map (fun t => ((b0 - 0xC0) * 64 + (b1 - 0x80)) :: t)
        else none
      | [] => none
    else if b0 ≤ 0xEF then
      match bs with
      | b1 :: b2 :: bs2 =>
        let lo := if b0 = 0xE0 then 0xA0 else 0x80
        let hi := if b0 = 0xED then 0x9F else 0xBF
        if (lo ≤ b1 && b1 ≤ hi) && utf8Cont b2 then
          (utf8DecodeCodepoints bs2).map
            (fun t => ((b0 - 0xE0) * 4096 + (b1 - 0x80) * 64 + (b2 - 0x80)) :: t)
        else none
      | _ => none
    else if b0 ≤ 0xF4 then
      match bs with
      | b1 :: b2 :: b3 :: bs3 =>
        let lo := if b0 = 0xF0 then 0x90 else 0x80
        let hi := if b0 = 0xF4 then 0x8F else 0xBF
        if ((lo ≤ b1 && b1 ≤ hi) && utf8Cont b2) && utf8Cont b3 then
          (utf8DecodeCodepoints bs3).map
            (fun t =>
              ((b0 - 0xF0) * 262144 + (b1 - 0x80) * 4096 + (b2 - 0x80) * 64 + (b3 - 0x80)) :: t)
        else none
      | _ => none
    else none

/-- `String::from_utf8(data)`: the decoded text, or `none` when the bytes are
not valid UTF-8 (the `Err` branch; Rust never inserts replacement characters
here). -/
def decodeUtf8 (bytes : List Nat) : Option String :=
  (utf8DecodeCodepoints bytes).map (fun cps => String.mk (cps.map Char.ofNat))

/-- Rust `str::ends_with('\n')`: the last character is a newline. -/
def endsWithNewline (s : String) : Bool := s.data.getLast? == some '\n'

/-! ### Collector data model -/

/-- `std::fs::Metadata`, as the collector consults it: `is_file()` and
`len()`. -/
structure Meta where
  is_file : Bool
  len : Nat
deriving DecidableEq

deriving instance DecidableEq for Except

/-- What the walker and the syscalls report for one yielded entry:
`file_type().map(|ft| ft.is_dir())`, the `metadata()` result, and the
`fs::read` result (error messages as strings). -/
structure EntryInfo where
  ftIsDir : Option Bool
  metaRes : Except String Meta
  readRes : Except String (List Nat)
deriving DecidableEq

/-- One item yielded by the `ignore` walker: an `Ok` entry with its depth and
relative path, or an `Err` not tied to a path. -/
inductive Event where
  | ok (depth : Nat) (rel : String) (info : EntryInfo)
  | err (msg : String)
deriving DecidableEq

/-- `SkipReason` (main.rs lines 60-64). -/
inductive SkipReason where
  | tooLarge (len : Nat)
  | nonUtf8
  | io (msg : String)
deriving DecidableEq

/-- `FileDump` (main.rs lines 50-53). -/
structure FileDump where
  relative_path : String
  contents : String
deriving DecidableEq

/-- `SkippedFile` (main.rs lines 55-58). -/
structure SkippedFile where
  relative_path : String
  reason : SkipReason
deriving DecidableEq

/-- `DEFAULT_IGNORED_DIRS` (main.rs line 14). -/
def DEFAULT_IGNORED_DIRS : List String := [".git", "node_modules", "target", ".venv", "venv"]

/-- `should_include` (main.rs lines 255-267): depth 0 always passes; a
directory entry passes iff its name is not in `DEFAULT_IGNORED_DIRS`;
anything else passes. (In the model entry names are `String`s, so the
`to_str` conversion of the Rust code always succeeds.) -/
def should_include (depth : Nat) (ftIsDir : Bool) (name : String) : Bool :=
  if depth = 0 then true
  else if ftIsDir then !(DEFAULT_IGNORED_DIRS.contains name)
  else true

/-- The filesystem as the walker sees it: a directory with children, a leaf
entry (regular file, symlink, socket, ...), or a walker error (`Err` item,
e.g. an unreadable directory). `vcsIgnored` marks entries some
version-control ignore rule (`.gitignore`, git exclude) excludes; the walker
prunes them. -/
inductive FSEntry where
  | dir (name : String) (vcsIgnored : Bool) (children : List FSEntry)
  | leaf (name : String) (vcsIgnored : Bool) (ftIsDir : Option Bool)
      (metaRes : Except String Meta) (readRes : Except String (List Nat))
  | walkErr (msg : String)

def FSEntry.name : FSEntry → String
  | .dir n _ _ => n
  | .leaf n _ _ _ _ => n
  | .walkErr _ => ""

def FSEntry.vcsIgnored : FSEntry → Bool
  | .dir _ v _ => v
  | .leaf _ v _ _ _ => v
  | .walkErr _ => false

mutual

/-- The event stream of the `ignore` walker rooted at `e`, whose own path
components (relative to the root) are `comps`. A directory yields its own
entry and then its children's streams, depth first; pruning by
version-control rules and by `should_include` (`filter_entry`) suppresses an
entry and its whole subtree. A directory's `EntryInfo` records what the
syscalls would report for it: a directory file type, metadata with
`is_file() = false`, and a read that fails. -/
def walkEntry (depth : Nat) (comps : List String) : FSEntry → List Event
  | .walkErr msg => [.err msg]
  | .leaf name vcs ft m r =>
    if depth ≠ 0 && vcs then []
    else if should_include depth (ft.getD false) name then
      [.ok depth (joinComps comps) ⟨ft, m, r⟩]
    else []
  | .dir name vcs children =>
    if depth ≠ 0 && vcs then []
    else if should_include depth true name then
      .ok depth (joinComps comps) ⟨some true, .ok ⟨false, 0⟩, .error "is a directory"⟩
        :: walkChildren (depth + 1) comps children
    else []

def walkChildren (depth : Nat) (comps : List String) : List FSEntry → List Event
  | [] => []
  | c :: cs => walkEntry depth (comps ++ [c.name]) c ++ walkChildren depth comps cs

end

/-- All events of a walk rooted at `root` (the root is yielded first, at
depth 0, with relative path `""`). -/
def walkEvents (root : FSEntry) : List Event := walkEntry 0 [] root

/-- The body of the `for entry in builder.build()` loop of `collect_files`
(main.rs lines 175-247) for one yielded item: the record it pushes, if any.
`none` models `continue` with no push. -/
def processEvent (max_file_size : Nat) : Event → Option (FileDump ⊕ SkippedFile)
  | .err msg => some (.inr ⟨"<walker>", .io msg⟩)
  | .ok depth rel info =>
    if depth = 0 then none
    else if info.ftIsDir.getD false then none
    else
      match info.metaRes with
      | .error e => some (.inr ⟨rel, .io e⟩)
      | .ok meta =>
        if !meta.is_file then none
        else if meta.len > max_file_size then some (.inr ⟨rel, .tooLarge meta.len⟩)
        else
          match info.readRes with
          | .error e => some (.inr ⟨rel, .io e⟩)
          | .ok data =>
            match decodeUtf8 data with
            | some text => some (.inl ⟨rel, text⟩)
            | none => some (.inr ⟨rel, .nonUtf8⟩)

/-- The whole loop: the `files` and `skipped` vectors in push order. -/
def processEvents (max_file_size : Nat) : List Event → List FileDump × List SkippedFile
  | [] => ([], [])
  | ev :: rest =>
    let p := processEvents max_file_size rest
    match processEvent max_file_size ev with
    | none => p
    | some (.inl f) => (f :: p.1, p.2)
    | some (.inr s) => (p.1, s :: p.2)

def fileLe (a b : FileDump) : Prop := bytesLe a.relative_path.data b.relative_path.data = true

def skipLe (a b : SkippedFile) : Prop := bytesLe a.relative_path.data b.relative_path.data = true

instance : DecidableRel fileLe := fun a b => by unfold fileLe; infer_instance

instance : DecidableRel skipLe := fun a b => by unfold skipLe; infer_instance

/-- The final sorts of `collect_files` (main.rs lines 249-250):
`sort_by(|a, b| a.relative_path.cmp(&b.relative_path))`. Rust's stable sort
and this stable insertion sort agree on a total order. -/
def collectFromEvents (max_file_size : Nat) (evs : List Event) :
    List FileDump × List SkippedFile :=
  let p := processEvents max_file_size evs
  (List.insertionSort fileLe p.1, List.insertionSort skipLe p.2)

/-- `collect_files` (main.rs lines 162-253) over a modelled filesystem. -/
def collect_files (root : FSEntry) (max_file_size : Nat) :
    List FileDump × List SkippedFile :=
  collectFromEvents max_file_size (walkEvents root)

/-! ### Tree builder and renderer -/

/-- `TreeNode` (main.rs lines 275-279): `children` models the
`BTreeMap<String, TreeNode>` as an association list kept sorted by key
(`BTreeMap` iterates in ascending key order). -/
inductive TreeNode where
  | node (children : List (String × TreeNode)) (is_file : Bool)

def TreeNode.children : TreeNode → List (String × TreeNode)
  | .node c _ => c

def TreeNode.is_file : TreeNode → Bool
  | .node _ f => f

/-- `TreeNode::default()`: no children, not a file. -/
def TreeNode.empty : TreeNode := .node [] false

/-- `BTreeMap::get`-style lookup in the sorted association list. -/
def lookupChild (k : String) : List (String × TreeNode) → Option TreeNode
  | [] => none
  | (k', v') :: rest => if k = k' then some v' else lookupChild k rest

/-- `BTreeMap::insert`-style write: replace the value at key `k`, or insert
`(k, v)` at its sorted position. Keys compare as path strings
(codepoint order, `bytesLe`). -/
def updateSorted (k : String) (v : TreeNode) : List (String × TreeNode) → List (String × TreeNode)
  | [] => [(k, v)]
  | (k', v') :: rest =>
    if k = k' then (k, v) :: rest
    else if bytesLe k.data k'.data then (k, v) :: (k', v') :: rest
    else (k', v') :: updateSorted k v rest

/-- `TreeNode::insert` (main.rs lines 282-291): walk down the components,
creating missing children (`entry(..).or_default()`); the node of the last
component is marked `is_file = true`. -/
def TreeNode.insert : TreeNode → List String → TreeNode
  | t, [] => t
  | t, first :: rest =>
    let child := (lookupChild first t.children).getD TreeNode.empty
    let child' :=
      if rest.isEmpty then TreeNode.node child.children true
      else child.insert rest
    TreeNode.node (updateSorted first child' t.children) t.is_file

/-- The folding loop of `build_file_tree` (main.rs lines 295-307): insert
each included file's path components, skipping empty component lists. -/
def buildTreeRoot (files : List FileDump) : TreeNode :=
  files.foldl
    (fun t f =>
      let parts := pathComponents f.relative_path
      if parts.isEmpty then t else t.insert parts)
    TreeNode.empty

/-- The line `render_tree` pushes for one child (main.rs lines 318-327):
prefix, branch connector, name, and a trailing `/` iff the child has
children and is not marked as a file. -/
def renderLine (pre : String) (is_last : Bool) (name : String) (child : TreeNode) : String :=
  let connector := if is_last then "`-- " else "|-- "
  let line := pre ++ connector ++ name
  if !child.children.isEmpty && !child.is_file then line ++ "/" else line

mutual

/-- `render_tree` (main.rs lines 315-335): the lines pushed for `node`'s
children, in order. -/
def render_tree : TreeNode → String → List String
  | .node children _, pre => renderChildren pre children

/-- The `for (idx, (name, child))` loop of `render_tree`: `is_last`
(`idx + 1 == total`) holds exactly when no entries remain after this one;
a child with children is rendered recursively under an extended prefix. -/
def renderChildren (pre : String) : List (String × TreeNode) → List String
  | [] => []
  | (name, child) :: rest =>
    let is_last := rest.isEmpty
    let line := renderLine pre is_last name child
    let sub :=
      if child.children.isEmpty then []
      else render_tree child (pre ++ (if is_last then "    " else "|   "))
    line :: (sub ++ renderChildren pre rest)

end

/-- `build_file_tree` (main.rs lines 294-313): fold the paths into a tree,
then join the root marker line `"."` and the rendered lines with newlines. -/
def build_file_tree (files : List FileDump) : String :=
  String.intercalate "\n" ("." :: render_tree (buildTreeRoot files) "")

/-! ### The per-file section of the assembled prompt -/

/-- The per-file section `run_dump` appends for one included file
(main.rs lines 116-124): a `###` header naming the relative path, then the
contents fenced verbatim, with one `'\n'` pushed before the closing fence
iff the contents do not already end with `'\n'`. -/
def fileSection (file : FileDump) : String :=
  "### " ++ file.relative_path ++ "\n" ++
    "```\n" ++
    file.contents ++
    (if endsWithNewline file.contents then "" else "\n") ++
    "```\n\n"

/-- All per-file sections of the `## Files` part of the prompt, in included
order. -/
def fileSections (files : List FileDump) : String :=
  String.join (files.map fileSection)

/-! ### Well-formedness of filesystem names -/

/-- A well-formed filesystem entry name: nonempty and without `/` (real
directory entries never contain the path separator). -/
def NameWF (s : String) : Bool := s ≠ "" && !(s.data.contains '/')

mutual

/-- All entry names in the tree are well-formed. -/
def FSEntry.wfNames : FSEntry → Bool
  | .dir name _ children => NameWF name && wfNamesList children
  | .leaf name _ _ _ _ => NameWF name
  | .walkErr _ => true

def wfNamesList : List FSEntry → Bool
  | [] => true
  | c :: cs => c.wfNames && wfNamesList cs

end

mutual

/-- Every `(name, child)` entry of every `children` map in the tree, in
rendering order. -/
def TreeNode.pairs : TreeNode → List (String × TreeNode)
  | .node children _ => pairsList children

def pairsList : List (String × TreeNode) → List (String × TreeNode)
  | [] => []
  | (name, child) :: rest => (name, child) :: (TreeNode.pairs child ++ pairsList rest)

end

/-! ## Theorems -/

/-- C5: Building and rendering the tree for exactly the relative paths
`["a/b.txt", "a/c.txt", "d.txt"]` yields, after the root marker line `"."`,
the line `"|-- a/"` (non-last branch with directory marker), then
`"|   |-- b.txt"` and `"|   `-- c.txt"` under the continuing prefix, and
`"`-- d.txt"` as the last top-level branch. -/
theorem build_file_tree_concrete_example :
    render_tree (buildTreeRoot [⟨"a/b.txt", ""⟩, ⟨"a/c.txt", ""⟩, ⟨"d.txt", ""⟩]) "" =
      ["|-- a/", "|   |-- b.txt", "|   `-- c.txt", "`-- d.txt"] ∧
    build_file_tree [⟨"a/b.txt", ""⟩, ⟨"a/c.txt", ""⟩, ⟨"d.txt", ""⟩] =
      ".\n|-- a/\n|   |-- b.txt\n|   `-- c.txt\n`-- d.txt" := by
  constructor <;> decide

/-- C6: For an empty included-files list `build_file_tree` returns exactly
the root marker line `"."` with no child lines, and inserting an empty
component sequence into any `TreeNode` leaves the tree unchanged. -/
theorem build_file_tree_empty_and_insert_nil :
    build_file_tree [] = "." ∧ ∀ t : TreeNode, t.insert [] = t := by
  refine ⟨by decide, fun t => rfl⟩

/-- C7: Every per-file fenced section ends with a newline immediately before
the closing fence: the fenced body is the file's text verbatim when it
already ends in `'\n'`, and the text with exactly one `'\n'` appended
otherwise, and in both cases the body's last character is `'\n'`. -/
theorem fileSection_trailing_newline (file : FileDump) :
    ∃ body : String,
      fileSection file =
        "### " ++ file.relative_path ++ "\n" ++ "```\n" ++ body ++ "```\n\n" ∧
      body.data.getLast? = some '\n' ∧
      body = if endsWithNewline file.contents then file.contents else file.contents ++ "\n" := by
  cases h : endsWithNewline file.contents with
  | true =>
    refine ⟨file.contents, ?_, ?_, by simp⟩
    · simp [fileSection, h]
    · have : (file.contents.data.getLast? == some '\n') = true := h
      simpa using this
  | false =>
    refine ⟨file.contents ++ "\n", ?_, ?_, by simp⟩
    · simp [fileSection, h, String.append_assoc]
    · have hdat : ("\n" : String).data = ['\n'] := rfl
      simp [String.data_append, hdat]

/-- C9: An entry below depth 0 whose metadata is obtained successfully but
which is neither a directory nor a regular file yields no record at all: the
loop body returns nothing for it, and removing the event from any event
stream leaves both output lists unchanged. -/
theorem collector_ignores_non_regular_entries
    (m depth : Nat) (rel : String) (info : EntryInfo) (len : Nat)
    (hdepth : depth ≠ 0)
    (hft : info.ftIsDir.getD false = false)
    (hmeta : info.metaRes = .ok ⟨false, len⟩) :
    processEvent m (.ok depth rel info) = none ∧
    ∀ evs1 evs2 : List Event,
      processEvents m (evs1 ++ .ok depth rel info :: evs2) = processEvents m (evs1 ++ evs2) := by
  have hnone : processEvent m (.ok depth rel info) = none := by
    simp [processEvent, hdepth, hft, hmeta]
  refine ⟨hnone, ?_⟩
  intro evs1 evs2
  induction evs1 with
  | nil => simp [processEvents, hnone]
  | cons e es ih => simp [processEvents, ih]

/-- C9 witness: a socket-like entry (file type neither dir nor file,
metadata fine) at depth 1 vanishes from the outputs. -/
theorem collector_ignores_non_regular_entries_witness :
    processEvent 5 (.ok 1 "s.sock" ⟨some false, .ok ⟨false, 3⟩, .error "x"⟩) = none ∧
    processEvents 5 ([.err "w"] ++ .ok 1 "s.sock" ⟨some false, .ok ⟨false, 3⟩, .error "x"⟩ :: []) =
      processEvents 5 ([.err "w"] ++ []) := by
  have h := collector_ignores_non_regular_entries 5 1 "s.sock"
    ⟨some false, .ok ⟨false, 3⟩, .error "x"⟩ 3 (by decide) (by decide) (by decide)
  exact ⟨h.1, h.2 [.err "w"] []⟩

/-- Helper for C4: the line pushed for a child ends in `'/'` exactly when the
child has at least one child and is not marked as a file (for any name that
does not itself end in `'/'`, as filesystem names never contain `'/'`). -/
theorem renderLine_marker_iff (pre : String) (is_last : Bool) (name : String) (child : TreeNode)
    (hname : name.data.getLast? ≠ some '/') :
    ((renderLine pre is_last name child).data.getLast? = some '/') ↔
      (child.children ≠ [] ∧ child.is_file = false) := by
  have hconn : ((if is_last then "`-- " else "|-- " : String)).data.getLast? = some ' ' := by
    cases is_last <;> decide
  unfold renderLine
  cases hcond : (!child.children.isEmpty && !child.is_file) with
  | true =>
    have hc : child.children.isEmpty = false ∧ child.is_file = false := by
      rcases Bool.and_eq_true _ _ |>.mp hcond with ⟨h1, h2⟩
      exact ⟨by simpa using h1, by simpa using h2⟩
    have hml :
        (((pre ++ (if is_last then "`-- " else "|-- ") ++ name) ++ "/").data).getLast? =
          some '/' := by
      have hsl : ("/" : String).data = ['/'] := rfl
      rw [String.data_append, hsl]
      exact List.getLast?_concat _
    simp only [hcond, if_true]
    constructor
    · intro _
      exact ⟨by simpa [List.isEmpty_iff] using hc.1, hc.2⟩
    · intro _
      exact hml
  | false =>
    have hrhs : ¬(child.children ≠ [] ∧ child.is_file = false) := by
      intro ⟨h1, h2⟩
      have : (!child.children.isEmpty && !child.is_file) = true := by
        simp [List.isEmpty_iff, h1, h2]
      simp [this] at hcond
    have hlhs :
        (((pre ++ (if is_last then "`-- " else "|-- ") ++ name)).data).getLast? ≠ some '/' := by
      rw [String.data_append, List.getLast?_append]
      cases hnd : name.data.getLast? with
      | none =>
        rw [String.data_append, List.getLast?_append, hconn]
        simp
      | some c =>
        have : c ≠ '/' := by intro h; exact hname (by rw [hnd, h])
        simp [this]
    simp only [hcond, if_false]
    exact iff_of_false hlhs hrhs

mutual

/-- Helper for C4: every line rendered below `node` is the `renderLine` of
some `(name, child)` entry of the tree. -/
theorem render_tree_lines_are_renderLines (node : TreeNode) (pre : String) :
    ∀ l ∈ render_tree node pre,
      ∃ pre' is_last p, p ∈ TreeNode.pairs node ∧ l = renderLine pre' is_last p.1 p.2 := by
  cases node with
  | node children f =>
    intro l hl
    have h := renderChildren_lines_are_renderLines pre children l (by simpa [render_tree] using hl)
    simpa [TreeNode.pairs] using h

/-- Helper for C4, the list form of `render_tree_lines_are_renderLines`. -/
theorem renderChildren_lines_are_renderLines (pre : String)
    (entries : List (String × TreeNode)) :
    ∀ l ∈ renderChildren pre entries,
      ∃ pre' is_last p, p ∈ pairsList entries ∧ l = renderLine pre' is_last p.1 p.2 := by
  cases entries with
  | nil => intro l hl; simp [renderChildren] at hl
  | cons e rest =>
    obtain ⟨name, child⟩ := e
    intro l hl
    simp only [renderChildren, List.mem_cons, List.mem_append] at hl
    rcases hl with hline | hsub | hrest
    · exact ⟨pre, rest.isEmpty, (name, child), by simp [pairsList], hline⟩
    · by_cases hce : child.children.isEmpty
      · simp [hce] at hsub
      · rw [if_neg hce] at hsub
        obtain ⟨pre', is_last, p, hp, hlp⟩ :=
          render_tree_lines_are_renderLines child
            (pre ++ if rest.isEmpty then "    " else "|   ") l hsub
        exact ⟨pre', is_last, p, by simp [pairsList, hp], hlp⟩
    · obtain ⟨pre', is_last, p, hp, hlp⟩ :=
        renderChildren_lines_are_renderLines pre rest l hrest
      exact ⟨pre', is_last, p, by simp [pairsList, hp], hlp⟩

end

/-- C4: In the rendered tree every line is the `renderLine` of some
`(name, child)` entry of the tree, and such a line carries the trailing `'/'`
directory marker if and only if that child node has at least one child and
is not marked `is_file` (for names not themselves ending in `'/'`). -/
theorem render_tree_dir_marker_iff :
    (∀ (pre : String) (is_last : Bool) (name : String) (child : TreeNode),
       name.data.getLast? ≠ some '/' →
       (((renderLine pre is_last name child).data.getLast? = some '/') ↔
         (child.children ≠ [] ∧ child.is_file = false))) ∧
    (∀ (node : TreeNode) (pre : String), ∀ l ∈ render_tree node pre,
       ∃ pre' is_last p, p ∈ TreeNode.pairs node ∧ l = renderLine pre' is_last p.1 p.2) :=
  ⟨renderLine_marker_iff, render_tree_lines_are_renderLines⟩

/-- C4 witness: a directory child with one child and `is_file = false` gets
the marker; evaluated at a concrete node. -/
theorem render_tree_dir_marker_iff_witness :
    ((renderLine "" true "a" (TreeNode.node [("b", TreeNode.empty)] false)).data.getLast? =
        some '/') ↔
      ((TreeNode.node [("b", TreeNode.empty)] false).children ≠ [] ∧
        (TreeNode.node [("b", TreeNode.empty)] false).is_file = false) :=
  render_tree_dir_marker_iff.1 "" true "a" (TreeNode.node [("b", TreeNode.empty)] false)
    (by decide)

/-- `bytesLe` is total. -/
theorem bytesLe_total : ∀ a b : List Char, bytesLe a b = true ∨ bytesLe b a = true
  | [], _ => .inl rfl
  | _ :: _, [] => .inr rfl
  | a :: as, b :: bs => by
    simp only [bytesLe]
    by_cases hab : a.toNat < b.toNat
    · left; simp [hab]
    · by_cases hba : b.toNat < a.toNat
      · right; simp [hba]
      · rcases bytesLe_total as bs with h | h
        · left; simp [if_neg hab, if_neg hba, h]
        · right; simp [if_neg hba, if_neg hab, h]

/-- `bytesLe` is transitive. -/
theorem bytesLe_trans : ∀ a b c : List Char,
    bytesLe a b = true → bytesLe b c = true → bytesLe a c = true
  | [], _, _, _, _ => rfl
  | _ :: _, [], _, h1, _ => by simp [bytesLe] at h1
  | _ :: _, _ :: _, [], _, h2 => by simp [bytesLe] at h2
  | a :: as, b :: bs, c :: cs, h1, h2 => by
    simp only [bytesLe] at h1 h2 ⊢
    by_cases hab : a.toNat < b.toNat
    · by_cases hbc : b.toNat < c.toNat
      · have hac : a.toNat < c.toNat := by omega
        simp [hac]
      · by_cases hcb : c.toNat < b.toNat
        · rw [if_neg hbc, if_pos hcb] at h2
          exact absurd h2 (by simp)
        · have hac : a.toNat < c.toNat := by omega
          simp [hac]
    · by_cases hba : b.toNat < a.toNat
      · rw [if_neg hab, if_pos hba] at h1
        exact absurd h1 (by simp)
      · by_cases hbc : b.toNat < c.toNat
        · have hac : a.toNat < c.toNat := by omega
          simp [hac]
        · by_cases hcb : c.toNat < b.toNat
          · rw [if_neg hbc, if_pos hcb] at h2
            exact absurd h2 (by simp)
          · have hac : ¬a.toNat < c.toNat := by omega
            have hca : ¬c.toNat < a.toNat := by omega
            rw [if_neg hab, if_neg hba] at h1
            rw [if_neg hbc, if_neg hcb] at h2
            rw [if_neg hac, if_neg hca]
            exact bytesLe_trans as bs cs h1 h2

instance : IsTotal FileDump fileLe := ⟨fun _ _ => bytesLe_total _ _⟩

instance : IsTrans FileDump fileLe := ⟨fun _ _ _ => bytesLe_trans _ _ _⟩

instance : IsTotal SkippedFile skipLe := ⟨fun _ _ => bytesLe_total _ _⟩

instance : IsTrans SkippedFile skipLe := ⟨fun _ _ _ => bytesLe_trans _ _ _⟩

/-- A record is in the `files` vector exactly when some event produced it. -/
theorem mem_processEvents_files (m : Nat) (evs : List Event) (f : FileDump) :
    f ∈ (processEvents m evs).1 ↔ ∃ ev ∈ evs, processEvent m ev = some (.inl f) := by
  induction evs with
  | nil => simp [processEvents]
  | cons ev rest ih =>
    cases hpe : processEvent m ev with
    | none => simp [processEvents, hpe, ih]
    | some r =>
      cases r with
      | inl f' =>
        constructor
        · intro hf
          have hf' : f = f' ∨ f ∈ (processEvents m rest).1 := by
            simpa [processEvents, hpe] using hf
          rcases hf' with rfl | hf'
          · exact ⟨ev, List.mem_cons_self _ _, hpe⟩
          · obtain ⟨e, he, hpe2⟩ := ih.mp hf'
            exact ⟨e, List.mem_cons_of_mem _ he, hpe2⟩
        · rintro ⟨e, he, hpe2⟩
          rcases List.mem_cons.mp he with rfl | he'
          · have hff : f' = f := by
              have h := hpe.symm.trans hpe2
              simpa using h
            subst hff
            simp [processEvents, hpe]
          · have hf' := ih.mpr ⟨e, he', hpe2⟩
            simp [processEvents, hpe, hf']
      | inr s' => simp [processEvents, hpe, ih]

/-- A record is in the `skipped` vector exactly when some event produced it. -/
theorem mem_processEvents_skipped (m : Nat) (evs : List Event) (s : SkippedFile) :
    s ∈ (processEvents m evs).2 ↔ ∃ ev ∈ evs, processEvent m ev = some (.inr s) := by
  induction evs with
  | nil => simp [processEvents]
  | cons ev rest ih =>
    cases hpe : processEvent m ev with
    | none => simp [processEvents, hpe, ih]
    | some r =>
      cases r with
      | inl f' => simp [processEvents, hpe, ih]
      | inr s' =>
        constructor
        · intro hs
          have hs' : s = s' ∨ s ∈ (processEvents m rest).2 := by
            simpa [processEvents, hpe] using hs
          rcases hs' with rfl | hs'
          · exact ⟨ev, List.mem_cons_self _ _, hpe⟩
          · obtain ⟨e, he, hpe2⟩ := ih.mp hs'
            exact ⟨e, List.mem_cons_of_mem _ he, hpe2⟩
        · rintro ⟨e, he, hpe2⟩
          rcases List.mem_cons.mp he with rfl | he'
          · have hss : s' = s := by
              have h := hpe.symm.trans hpe2
              simpa using h
            subst hss
            simp [processEvents, hpe]
          · have hs' := ih.mpr ⟨e, he', hpe2⟩
            simp [processEvents, hpe, hs']

/-- Membership in the sorted included list, in terms of the walk events. -/
theorem mem_collect_files_files (root : FSEntry) (m : Nat) (f : FileDump) :
    f ∈ (collect_files root m).1 ↔
      ∃ ev ∈ walkEvents root, processEvent m ev = some (.inl f) := by
  have hperm :
      (collect_files root m).1.Perm (processEvents m (walkEvents root)).1 :=
    List.perm_insertionSort fileLe _
  rw [hperm.mem_iff]
  exact mem_processEvents_files m (walkEvents root) f

/-- Membership in the sorted skipped list, in terms of the walk events. -/
theorem mem_collect_files_skipped (root : FSEntry) (m : Nat) (s : SkippedFile) :
    s ∈ (collect_files root m).2 ↔
      ∃ ev ∈ walkEvents root, processEvent m ev = some (.inr s) := by
  have hperm :
      (collect_files root m).2.Perm (processEvents m (walkEvents root)).2 :=
    List.perm_insertionSort skipLe _
  rw [hperm.mem_iff]
  exact mem_processEvents_skipped m (walkEvents root) s

/-- C1: For every event stream (hence for every filesystem and traversal
order) the included and skipped lists returned by `collect_files` are each
sorted by relative path in byte/codepoint lexicographic order. -/
theorem collect_files_sorted_by_relative_path (m : Nat) :
    (∀ evs : List Event,
       ((collectFromEvents m evs).1.Sorted fileLe) ∧
       ((collectFromEvents m evs).2.Sorted skipLe)) ∧
    (∀ root : FSEntry,
       ((collect_files root m).1.Sorted fileLe) ∧
       ((collect_files root m).2.Sorted skipLe)) := by
  constructor
  · intro evs
    exact ⟨List.sorted_insertionSort fileLe _, List.sorted_insertionSort skipLe _⟩
  · intro root
    exact ⟨List.sorted_insertionSort fileLe _, List.sorted_insertionSort skipLe _⟩

/-- C2: A regular-file event of byte length exactly `max_file_size` is
included (when its content decodes as UTF-8), while one of length
`max_file_size + 1` or more is skipped as `TooLarge` carrying that length,
and in that branch the loop body never consults the read result (the file's
content is not read). -/
theorem collect_files_size_boundary (root : FSEntry) (m : Nat)
    (depth : Nat) (rel : String) (info : EntryInfo) (len : Nat)
    (hev : Event.ok depth rel info ∈ walkEvents root)
    (hdepth : depth ≠ 0)
    (hft : info.ftIsDir.getD false = false)
    (hmeta : info.metaRes = .ok ⟨true, len⟩) :
    (len = m → ∀ (data : List Nat) (text : String),
       info.readRes = .ok data → decodeUtf8 data = some text →
       (⟨rel, text⟩ : FileDump) ∈ (collect_files root m).1) ∧
    (m < len →
       (⟨rel, .tooLarge len⟩ : SkippedFile) ∈ (collect_files root m).2 ∧
       ∀ r : Except String (List Nat),
         processEvent m (.ok depth rel { info with readRes := r }) =
           some (.inr ⟨rel, .tooLarge len⟩)) := by
  constructor
  · intro hlen data text hread hdec
    have hpe : processEvent m (.ok depth rel info) = some (.inl ⟨rel, text⟩) := by
      simp [processEvent, hdepth, hft, hmeta, hread, hdec, hlen]
    exact (mem_collect_files_files root m _).mpr ⟨_, hev, hpe⟩
  · intro hlen
    have hpe : ∀ r : Except String (List Nat),
        processEvent m (.ok depth rel { info with readRes := r }) =
          some (.inr ⟨rel, .tooLarge len⟩) := by
      intro r
      simp [processEvent, hdepth, hft, hmeta, hlen]
    refine ⟨?_, hpe⟩
    have hpe' : processEvent m (.ok depth rel info) = some (.inr ⟨rel, .tooLarge len⟩) := by
      have h := hpe info.readRes
      simpa using h
    exact (mem_collect_files_skipped root m _).mpr ⟨_, hev, hpe'⟩

/-- C2 witness: with `max_file_size = 2`, a 2-byte file is included and a
3-byte file is skipped as `TooLarge 3`, on a concrete two-file root. -/
theorem collect_files_size_boundary_witness :
    ((⟨"eq.txt", "AB"⟩ : FileDump) ∈
      (collect_files
        (.dir "r" false
          [.leaf "eq.txt" false (some false) (.ok ⟨true, 2⟩) (.ok [65, 66]),
           .leaf "big.txt" false (some false) (.ok ⟨true, 3⟩) (.ok [67, 68, 69])]) 2).1) ∧
    ((⟨"big.txt", .tooLarge 3⟩ : SkippedFile) ∈
      (collect_files
        (.dir "r" false
          [.leaf "eq.txt" false (some false) (.ok ⟨true, 2⟩) (.ok [65, 66]),
           .leaf "big.txt" false (some false) (.ok ⟨true, 3⟩) (.ok [67, 68, 69])]) 2).2) := by
  constructor
  · exact (collect_files_size_boundary
      (.dir "r" false
        [.leaf "eq.txt" false (some false) (.ok ⟨true, 2⟩) (.ok [65, 66]),
         .leaf "big.txt" false (some false) (.ok ⟨true, 3⟩) (.ok [67, 68, 69])]) 2
      1 "eq.txt" ⟨some false, .ok ⟨true, 2⟩, .ok [65, 66]⟩ 2
      (by decide) (by decide) (by decide) rfl).1 rfl [65, 66] "AB" rfl (by decide)
  · exact ((collect_files_size_boundary
      (.dir "r" false
        [.leaf "eq.txt" false (some false) (.ok ⟨true, 2⟩) (.ok [65, 66]),
         .leaf "big.txt" false (some false) (.ok ⟨true, 3⟩) (.ok [67, 68, 69])]) 2
      1 "big.txt" ⟨some false, .ok ⟨true, 3⟩, .ok [67, 68, 69]⟩ 3
      (by decide) (by decide) (by decide) rfl).2 (by decide)).1

/-- C3: A file whose bytes are not valid UTF-8 (size within the limit, read
succeeded) makes the loop body emit exactly a `NonUtf8` skip record — so no
`FileRecord` at all is emitted for that entry, in particular none containing
replacement characters — and that skip record is in the skipped output. -/
theorem collect_files_non_utf8_skipped (root : FSEntry) (m : Nat)
    (depth : Nat) (rel : String) (info : EntryInfo) (len : Nat) (data : List Nat)
    (hev : Event.ok depth rel info ∈ walkEvents root)
    (hdepth : depth ≠ 0)
    (hft : info.ftIsDir.getD false = false)
    (hmeta : info.metaRes = .ok ⟨true, len⟩)
    (hlen : len ≤ m)
    (hread : info.readRes = .ok data)
    (hdec : decodeUtf8 data = none) :
    processEvent m (.ok depth rel info) = some (.inr ⟨rel, .nonUtf8⟩) ∧
    (⟨rel, .nonUtf8⟩ : SkippedFile) ∈ (collect_files root m).2 := by
  have hpe : processEvent m (.ok depth rel info) = some (.inr ⟨rel, .nonUtf8⟩) := by
    simp [processEvent, hdepth, hft, hmeta, hread, hdec, Nat.not_lt.mpr hlen]
  exact ⟨hpe, (mem_collect_files_skipped root m _).mpr ⟨_, hev, hpe⟩⟩

/-- C3 witness: a 2-byte non-UTF-8 file (bytes `0xFF 0x00`) is skipped as
`NonUtf8` on a concrete root. -/
theorem collect_files_non_utf8_skipped_witness :
    processEvent 5 (.ok 1 "bad.bin" ⟨some false, .ok ⟨true, 2⟩, .ok [255, 0]⟩) =
      some (.inr ⟨"bad.bin", .nonUtf8⟩) ∧
    (⟨"bad.bin", .nonUtf8⟩ : SkippedFile) ∈
      (collect_files
        (.dir "r" false [.leaf "bad.bin" false (some false) (.ok ⟨true, 2⟩) (.ok [255, 0])])
        5).2 :=
  collect_files_non_utf8_skipped
    (.dir "r" false [.leaf "bad.bin" false (some false) (.ok ⟨true, 2⟩) (.ok [255, 0])])
    5 1 "bad.bin" ⟨some false, .ok ⟨true, 2⟩, .ok [255, 0]⟩ 2 [255, 0]
    (by decide) (by decide) (by decide) rfl (by decide) rfl (by decide)

/-- Helper for C8: a record's relative path is the event's relative path
(`"<walker>"` for walker errors). -/
theorem processEvent_rel (m : Nat) (ev : Event) (rec : FileDump ⊕ SkippedFile)
    (h : processEvent m ev = some rec) :
    (match rec with | .inl f => f.relative_path | .inr s => s.relative_path) =
      (match ev with | .ok _ r _ => r | .err _ => "<walker>") := by
  cases ev with
  | err msg =>
    rw [processEvent] at h
    cases h
    rfl
  | ok d r i =>
    rw [processEvent] at h
    repeat' split at h
    all_goals simp_all
    all_goals (cases h; rfl)

mutual

/-- Helper for C8: every `Ok` event of a walk below `comps` has a relative
path that joins well-formed components none of which, except possibly the
last, is a default-ignored directory name. -/
theorem walkEntry_paths_good (e : FSEntry) (depth : Nat) (comps : List String)
    (hwf : e.wfNames = true)
    (hcompswf : ∀ c ∈ comps, NameWF c = true)
    (hcomps : ∀ c ∈ comps.dropLast, c ∉ DEFAULT_IGNORED_DIRS)
    (hlink : depth = 0 → comps = [])
    (hlast : depth ≠ 0 → comps.getLast? = some e.name) :
    ∀ ev ∈ walkEntry depth comps e, ∀ (d : Nat) (r : String) (i : EntryInfo),
      ev = Event.ok d r i →
      ∃ cs : List String, r = joinComps cs ∧ (∀ c ∈ cs, NameWF c = true) ∧
        ∀ c ∈ cs.dropLast, c ∉ DEFAULT_IGNORED_DIRS := by
  cases e with
  | walkErr msg =>
    intro ev hev d r i heq
    rw [walkEntry] at hev
    simp at hev
    subst hev
    cases heq
  | leaf name vcs ft mres rres =>
    intro ev hev d r i heq
    rw [walkEntry] at hev
    split at hev
    · simp at hev
    · split at hev
      · simp at hev
        subst hev
        cases heq
        exact ⟨comps, rfl, hcompswf, hcomps⟩
      · simp at hev
  | dir name vcs children =>
    intro ev hev d r i heq
    rw [walkEntry] at hev
    split at hev
    · simp at hev
    · split at hev
      case isFalse h1 => simp at hev
      case isTrue h1 hinc =>
        rcases List.mem_cons.mp hev with hev1 | hev2
        · subst hev1
          cases heq
          exact ⟨comps, rfl, hcompswf, hcomps⟩
        · have hwf' : wfNamesList children = true := by
            rw [FSEntry.wfNames] at hwf
            exact (Bool.and_eq_true _ _ |>.mp hwf).2
          have hcall : ∀ c ∈ comps, c ∉ DEFAULT_IGNORED_DIRS := by
            by_cases hd : depth = 0
            · intro c hc
              rw [hlink hd] at hc
              simp at hc
            · have hlast' := hlast hd
              have hne : comps ≠ [] := by
                intro hnil
                rw [hnil] at hlast'
                simp at hlast'
              have hname : name ∉ DEFAULT_IGNORED_DIRS := by
                rw [should_include, if_neg hd, if_pos rfl] at hinc
                simpa using hinc
              have hgl : comps.getLast hne = name := by
                have := (List.getLast?_eq_getLast comps hne).symm.trans hlast'
                exact Option.some.inj this.symm |>.symm
              intro c hc
              have hsplit : comps.dropLast ++ [comps.getLast hne] = comps :=
                List.dropLast_append_getLast hne
              rw [← hsplit] at hc
              rcases List.mem_append.mp hc with hc1 | hc2
              · exact hcomps c hc1
              · have : c = name := by
                  rw [hgl] at hc2
                  simpa using hc2
                rw [this]
                exact hname
          exact walkChildren_paths_good children (depth + 1) comps hwf' hcompswf hcall
            (Nat.succ_ne_zero depth) ev hev2 d r i heq

/-- Helper for C8, the list form of `walkEntry_paths_good`: here every
component of `comps` (the parent directory's path) is known non-ignored. -/
theorem walkChildren_paths_good (cs : List FSEntry) (depth : Nat) (comps : List String)
    (hwf : wfNamesList cs = true)
    (hcompswf : ∀ c ∈ comps, NameWF c = true)
    (hcomps : ∀ c ∈ comps, c ∉ DEFAULT_IGNORED_DIRS)
    (hdepth : depth ≠ 0) :
    ∀ ev ∈ walkChildren depth comps cs, ∀ (d : Nat) (r : String) (i : EntryInfo),
      ev = Event.ok d r i →
      ∃ l : List String, r = joinComps l ∧ (∀ c ∈ l, NameWF c = true) ∧
        ∀ c ∈ l.dropLast, c ∉ DEFAULT_IGNORED_DIRS := by
  cases cs with
  | nil =>
    intro ev hev
    rw [walkChildren] at hev
    simp at hev
  | cons c rest =>
    intro ev hev d r i heq
    rw [walkChildren] at hev
    have hcwf : c.wfNames = true ∧ wfNamesList rest = true := by
      rw [wfNamesList] at hwf
      exact Bool.and_eq_true _ _ |>.mp hwf
    rcases List.mem_append.mp hev with hev1 | hev2
    · cases c with
      | walkErr msg =>
        rw [walkEntry] at hev1
        simp at hev1
        subst hev1
        cases heq
      | leaf name vcs ft mres rres =>
        have hn : NameWF name = true := by
          rw [FSEntry.wfNames] at hcwf
          exact hcwf.1
        apply walkEntry_paths_good (.leaf name vcs ft mres rres) depth
          (comps ++ [(FSEntry.leaf name vcs ft mres rres).name]) hcwf.1
          ?_ ?_ (fun h => absurd h hdepth) (fun _ => List.getLast?_concat _)
          ev hev1 d r i heq
        · intro x hx
          rcases List.mem_append.mp hx with hx1 | hx2
          · exact hcompswf x hx1
          · have : x = name := by simpa [FSEntry.name] using hx2
            rw [this]
            exact hn
        · intro x hx
          rw [List.dropLast_concat] at hx
          exact hcomps x hx
      | dir name vcs children =>
        have hn : NameWF name = true := by
          rw [FSEntry.wfNames] at hcwf
          exact (Bool.and_eq_true _ _ |>.mp hcwf.1).1
        apply walkEntry_paths_good (.dir name vcs children) depth
          (comps ++ [(FSEntry.dir name vcs children).name]) hcwf.1
          ?_ ?_ (fun h => absurd h hdepth) (fun _ => List.getLast?_concat _)
          ev hev1 d r i heq
        · intro x hx
          rcases List.mem_append.mp hx with hx1 | hx2
          · exact hcompswf x hx1
          · have : x = name := by simpa [FSEntry.name] using hx2
            rw [this]
            exact hn
        · intro x hx
          rw [List.dropLast_concat] at hx
          exact hcomps x hx
    · exact walkChildren_paths_good rest depth comps hcwf.2 hcompswf hcomps hdepth
        ev hev2 d r i heq

end

/-- C8: On any filesystem with well-formed entry names (nonempty, no `/`),
every relative path in either output list of `collect_files` is the sentinel
`"<walker>"` or joins well-formed components none of which — except possibly
the final one — is one of `.git`, `node_modules`, `target`, `.venv`, `venv`:
no path of (or below) a directory with such a name ever appears, whatever
the version-control ignore flags say. -/
theorem collect_files_ignored_dirs_never_appear (root : FSEntry) (m : Nat)
    (hwf : root.wfNames = true) :
    ∀ p : String,
      ((∃ f ∈ (collect_files root m).1, f.relative_path = p) ∨
       (∃ s ∈ (collect_files root m).2, s.relative_path = p)) →
      p = "<walker>" ∨
        ∃ cs : List String, p = joinComps cs ∧ (∀ c ∈ cs, NameWF c = true) ∧
          ∀ c ∈ cs.dropLast, c ∉ DEFAULT_IGNORED_DIRS := by
  intro p hp
  rcases hp with ⟨f, hf, hfp⟩ | ⟨s, hs, hsp⟩
  · obtain ⟨ev, hev, hpe⟩ := (mem_collect_files_files root m f).mp hf
    cases ev with
    | err msg =>
      rw [processEvent] at hpe
      exact absurd hpe (by simp)
    | ok d r i =>
      have hrel : f.relative_path = r := by
        have h := processEvent_rel m (.ok d r i) (.inl f) hpe
        simpa using h
      right
      obtain ⟨cs, h1, h2, h3⟩ := walkEntry_paths_good root 0 [] hwf (by simp) (by simp)
        (fun _ => rfl) (fun h => absurd rfl h) (.ok d r i) hev d r i rfl
      exact ⟨cs, by rw [← hfp, hrel, h1], h2, h3⟩
  · obtain ⟨ev, hev, hpe⟩ := (mem_collect_files_skipped root m s).mp hs
    cases ev with
    | err msg =>
      left
      rw [processEvent] at hpe
      have : s = ⟨"<walker>", .io msg⟩ := by
        have h := Option.some.inj hpe
        exact (Sum.inr.inj h.symm)
      rw [← hsp, this]
    | ok d r i =>
      have hrel : s.relative_path = r := by
        have h := processEvent_rel m (.ok d r i) (.inr s) hpe
        simpa using h
      right
      obtain ⟨cs, h1, h2, h3⟩ := walkEntry_paths_good root 0 [] hwf (by simp) (by simp)
        (fun _ => rfl) (fun h => absurd rfl h) (.ok d r i) hev d r i rfl
      exact ⟨cs, by rw [← hsp, hrel, h1], h2, h3⟩

/-- C8 witness: on a concrete root containing a `.git` directory with a file
inside, the included path `"a.txt"` decomposes as required. -/
theorem collect_files_ignored_dirs_never_appear_witness :
    "a.txt" = "<walker>" ∨
      ∃ cs : List String, "a.txt" = joinComps cs ∧ (∀ c ∈ cs, NameWF c = true) ∧
        ∀ c ∈ cs.dropLast, c ∉ DEFAULT_IGNORED_DIRS :=
  collect_files_ignored_dirs_never_appear
    (.dir "r" false
      [.dir ".git" false [.leaf "config" false (some false) (.ok ⟨true, 1⟩) (.ok [65])],
       .leaf "a.txt" false (some false) (.ok ⟨true, 1⟩) (.ok [65])])
    5 (by decide) "a.txt"
    (.inl ⟨⟨"a.txt", "A"⟩, by decide, rfl⟩)

/-- `bytesLe` is antisymmetric. -/
theorem bytesLe_antisymm : ∀ a b : List Char,
    bytesLe a b = true → bytesLe b a = true → a = b
  | [], [], _, _ => rfl
  | [], _ :: _, _, h2 => by simp [bytesLe] at h2
  | _ :: _, [], h1, _ => by simp [bytesLe] at h1
  | a :: as, b :: bs, h1, h2 => by
    simp only [bytesLe] at h1 h2
    by_cases hab : a.toNat < b.toNat
    · rw [if_neg (by omega), if_pos hab] at h2
      exact absurd h2 (by simp)
    · by_cases hba : b.toNat < a.toNat
      · rw [if_neg hab, if_pos hba] at h1
        exact absurd h1 (by simp)
      · rw [if_neg hab, if_neg hba] at h1
        rw [if_neg hba, if_neg hab] at h2
        have heq : a = b := by
          apply Char.ext
          apply UInt32.ext
          have : a.toNat = b.toNat := by omega
          exact_mod_cast this
        subst heq
        rw [bytesLe_antisymm as bs h1 h2]

/-- Antisymmetry at the `String` level. -/
theorem pathStr_antisymm (a b : String)
    (h1 : bytesLe a.data b.data = true) (h2 : bytesLe b.data a.data = true) : a = b :=
  String.ext (bytesLe_antisymm _ _ h1 h2)

/-- Looking up the just-written key returns the written value. -/
theorem lookupChild_updateSorted_self (k : String) (v : TreeNode) :
    ∀ l, lookupChild k (updateSorted k v l) = some v
  | [] => by simp [updateSorted, lookupChild]
  | (k', v') :: rest => by
    by_cases hk : k = k'
    · simp [updateSorted, hk, lookupChild]
    · rw [updateSorted, if_neg hk]
      by_cases hle : bytesLe k.data k'.data = true
      · rw [if_pos hle]
        simp [lookupChild]
      · rw [if_neg hle, lookupChild, if_neg hk]
        exact lookupChild_updateSorted_self k v rest

/-- Writing one key does not change lookups of another. -/
theorem lookupChild_updateSorted_ne {j k : String} (h : j ≠ k) (v : TreeNode) :
    ∀ l, lookupChild j (updateSorted k v l) = lookupChild j l
  | [] => by simp [updateSorted, lookupChild, h]
  | (k', v') :: rest => by
    by_cases hk : k = k'
    · subst hk
      rw [updateSorted, if_pos rfl, lookupChild, lookupChild, if_neg h, if_neg h]
    · rw [updateSorted, if_neg hk]
      by_cases hle : bytesLe k.data k'.data = true
      · rw [if_pos hle, lookupChild, if_neg h]
      · rw [if_neg hle, lookupChild, lookupChild]
        by_cases hjk : j = k'
        · rw [if_pos hjk, if_pos hjk]
        · rw [if_neg hjk, if_neg hjk]
          exact lookupChild_updateSorted_ne h v rest

/-- Writing a key twice keeps only the second write. -/
theorem updateSorted_updateSorted_self (k : String) (v w : TreeNode) :
    ∀ l, updateSorted k v (updateSorted k w l) = updateSorted k v l
  | [] => by simp [updateSorted]
  | (k', v') :: rest => by
    by_cases hk : k = k'
    · simp [updateSorted, hk]
    · rw [updateSorted, if_neg hk]
      by_cases hle : bytesLe k.data k'.data = true
      · rw [if_pos hle]
        simp [updateSorted, hk, hle]
      · rw [if_neg hle]
        rw [updateSorted, if_neg hk, if_neg hle]
        rw [updateSorted, if_neg hk, if_neg hle]
        rw [updateSorted_updateSorted_self k v w rest]

/-- Writes at distinct keys commute. -/
theorem updateSorted_comm {k j : String} (hkj : k ≠ j) (v w : TreeNode) :
    ∀ l, updateSorted k v (updateSorted j w l) = updateSorted j w (updateSorted k v l)
  | [] => by
    have hjk : j ≠ k := Ne.symm hkj
    by_cases hle : bytesLe k.data j.data = true
    · have hnle : ¬bytesLe j.data k.data = true := fun h2 => hkj (pathStr_antisymm _ _ hle h2)
      simp [updateSorted, hkj, hjk, hle, hnle]
    · have hle2 : bytesLe j.data k.data = true := by
        rcases bytesLe_total k.data j.data with h | h
        · exact absurd h hle
        · exact h
      simp [updateSorted, hkj, hjk, hle, hle2]
  | (a, x) :: rest => by
    have hjk : j ≠ k := Ne.symm hkj
    by_cases hja : j = a
    · subst hja
      by_cases hkjLe : bytesLe k.data j.data = true
      · have hnjk : ¬bytesLe j.data k.data = true := fun h2 => hkj (pathStr_antisymm _ _ hkjLe h2)
        simp [updateSorted, hkj, hjk, hkjLe, hnjk]
      · simp [updateSorted, hkj, hjk, hkjLe]
    · by_cases hka : k = a
      · subst hka
        by_cases hjkLe : bytesLe j.data k.data = true
        · have hnkj : ¬bytesLe k.data j.data = true := fun h2 => hkj (pathStr_antisymm _ _ h2 hjkLe)
          simp [updateSorted, hkj, hjk, hjkLe, hnkj]
        · simp [updateSorted, hkj, hjk, hjkLe]
      · by_cases hjaLe : bytesLe j.data a.data = true
        · by_cases hkjLe : bytesLe k.data j.data = true
          · have hkaLe : bytesLe k.data a.data = true := bytesLe_trans _ _ _ hkjLe hjaLe
            have hnjk : ¬bytesLe j.data k.data = true :=
              fun h2 => hkj (pathStr_antisymm _ _ hkjLe h2)
            simp [updateSorted, hkj, hjk, hja, hka, hjaLe, hkjLe, hkaLe, hnjk]
          · have hjkLe : bytesLe j.data k.data = true := by
              rcases bytesLe_total k.data j.data with h | h
              · exact absurd h hkjLe
              · exact h
            by_cases hkaLe : bytesLe k.data a.data = true
            · simp [updateSorted, hkj, hjk, hja, hka, hjaLe, hkjLe, hjkLe, hkaLe]
            · simp [updateSorted, hkj, hjk, hja, hka, hjaLe, hkjLe, hkaLe]
        · have hajLe : bytesLe a.data j.data = true := by
            rcases bytesLe_total j.data a.data with h | h
            · exact absurd h hjaLe
            · exact h
          by_cases hkaLe : bytesLe k.data a.data = true
          · have hnjkLe : ¬bytesLe j.data k.data = true := by
              intro h2
              exact hjaLe (bytesLe_trans _ _ _ h2 hkaLe)
            simp [updateSorted, hkj, hjk, hja, hka, hjaLe, hkaLe, hnjkLe]
          · simp only [updateSorted, if_neg hja, if_neg hjaLe, if_neg hka, if_neg hkaLe]
            rw [updateSorted_comm hkj v w rest]

/-- Inserting the same component sequence twice equals inserting it once. -/
theorem TreeNode.insert_idem : ∀ (cs : List String) (t : TreeNode),
    (t.insert cs).insert cs = t.insert cs
  | [], _ => rfl
  | c :: cr, t => by
    cases t with
    | node ch b =>
      have hstep : ∀ x : TreeNode,
          (if cr.isEmpty then
              TreeNode.node
                (if cr.isEmpty then TreeNode.node x.children true else x.insert cr).children true
            else (if cr.isEmpty then TreeNode.node x.children true else x.insert cr).insert cr) =
            (if cr.isEmpty then TreeNode.node x.children true else x.insert cr) := by
        intro x
        cases cr with
        | nil => simp [TreeNode.children]
        | cons e cr' =>
          simpa using TreeNode.insert_idem (e :: cr') x
      simp only [TreeNode.insert, TreeNode.children, TreeNode.is_file,
        lookupChild_updateSorted_self, Option.getD_some, updateSorted_updateSorted_self]
      exact congrArg (fun z => TreeNode.node (updateSorted c z ch) b)
        (hstep ((lookupChild c ch).getD TreeNode.empty))

/-- Insertions of two component sequences commute. -/
theorem TreeNode.insert_comm : ∀ (cs ds : List String) (t : TreeNode),
    (t.insert cs).insert ds = (t.insert ds).insert cs
  | [], _, _ => rfl
  | _ :: _, [], _ => rfl
  | c :: cr, d :: dr, t => by
    cases t with
    | node ch b =>
      by_cases hcd : c = d
      · subst hcd
        have hstep : ∀ x : TreeNode,
            (if dr.isEmpty then
                TreeNode.node
                  (if cr.isEmpty then TreeNode.node x.children true else x.insert cr).children true
              else (if cr.isEmpty then TreeNode.node x.children true else x.insert cr).insert dr) =
              (if cr.isEmpty then
                TreeNode.node
                  (if dr.isEmpty then TreeNode.node x.children true else x.insert dr).children true
              else (if dr.isEmpty then TreeNode.node x.children true else x.insert dr).insert cr) := by
          intro x
          cases cr with
          | nil =>
            cases dr with
            | nil => simp
            | cons f dr' =>
              cases x with
              | node xch xb => simp [TreeNode.insert, TreeNode.children, TreeNode.is_file]
          | cons e cr' =>
            cases dr with
            | nil =>
              cases x with
              | node xch xb => simp [TreeNode.insert, TreeNode.children, TreeNode.is_file]
            | cons f dr' =>
              simpa using TreeNode.insert_comm (e :: cr') (f :: dr') x
        simp only [TreeNode.insert, TreeNode.children, TreeNode.is_file,
          lookupChild_updateSorted_self, Option.getD_some, updateSorted_updateSorted_self]
        exact congrArg (fun z => TreeNode.node (updateSorted c z ch) b)
          (hstep ((lookupChild c ch).getD TreeNode.empty))
      · have hdc : d ≠ c := Ne.symm hcd
        simp only [TreeNode.insert, TreeNode.children, TreeNode.is_file,
          lookupChild_updateSorted_ne hdc, lookupChild_updateSorted_ne hcd]
        rw [updateSorted_comm hdc]

/-- Folding an idempotent right-commutative step absorbs an element already
occurring later in the list. -/
theorem foldl_absorb_of_mem {α β : Type} (f : β → α → β)
    (hcomm : ∀ (b : β) (a1 a2 : α), f (f b a1) a2 = f (f b a2) a1)
    (hidem : ∀ (b : β) (a : α), f (f b a) a = f b a) :
    ∀ (l : List α) (b : β) (a : α), a ∈ l → List.foldl f (f b a) l = List.foldl f b l
  | [], _, _, ha => by simp at ha
  | q :: l', b, a, ha => by
    rcases List.mem_cons.mp ha with rfl | ha'
    · simp only [List.foldl_cons]
      rw [hidem]
    · simp only [List.foldl_cons]
      rw [hcomm b a q]
      exact foldl_absorb_of_mem f hcomm hidem l' (f b q) a ha'

/-- Folding an idempotent right-commutative step sees only distinct
elements. -/
theorem foldl_eq_foldl_dedup {α β : Type} [DecidableEq α] (f : β → α → β)
    (hcomm : ∀ (b : β) (a1 a2 : α), f (f b a1) a2 = f (f b a2) a1)
    (hidem : ∀ (b : β) (a : α), f (f b a) a = f b a) :
    ∀ (l : List α) (b : β), List.foldl f b l = List.foldl f b l.dedup
  | [], _ => rfl
  | a :: l', b => by
    by_cases ha : a ∈ l'
    · rw [List.dedup_cons_of_mem ha, List.foldl_cons,
        foldl_absorb_of_mem f hcomm hidem l' b a ha]
      exact foldl_eq_foldl_dedup f hcomm hidem l' b
    · rw [List.dedup_cons_of_not_mem ha, List.foldl_cons, List.foldl_cons]
      exact foldl_eq_foldl_dedup f hcomm hidem l' (f b a)

/-- The tree folded by `build_file_tree` depends only on the set of distinct
relative paths. -/
theorem buildTreeRoot_eq_of_toFinset_eq (l1 l2 : List FileDump)
    (h : (l1.map FileDump.relative_path).toFinset = (l2.map FileDump.relative_path).toFinset) :
    buildTreeRoot l1 = buildTreeRoot l2 := by
  have hmap : ∀ l : List FileDump, buildTreeRoot l =
      List.foldl
        (fun t p => if (pathComponents p).isEmpty then t else t.insert (pathComponents p))
        TreeNode.empty (l.map FileDump.relative_path) := by
    intro l
    rw [buildTreeRoot, List.foldl_map]
  have hcomm : ∀ (t : TreeNode) (p q : String),
      (if (pathComponents q).isEmpty then
          (if (pathComponents p).isEmpty then t else t.insert (pathComponents p))
        else
          (if (pathComponents p).isEmpty then t
            else t.insert (pathComponents p)).insert (pathComponents q)) =
      (if (pathComponents p).isEmpty then
          (if (pathComponents q).isEmpty then t else t.insert (pathComponents q))
        else
          (if (pathComponents q).isEmpty then t
            else t.insert (pathComponents q)).insert (pathComponents p)) := by
    intro t p q
    by_cases hp : (pathComponents p).isEmpty <;> by_cases hq : (pathComponents q).isEmpty
    · simp [hp, hq]
    · simp [hp, hq]
    · simp [hp, hq]
    · simp only [if_neg hp, if_neg hq]
      exact TreeNode.insert_comm _ _ t
  have hidem : ∀ (t : TreeNode) (p : String),
      (if (pathComponents p).isEmpty then
          (if (pathComponents p).isEmpty then t else t.insert (pathComponents p))
        else
          (if (pathComponents p).isEmpty then t
            else t.insert (pathComponents p)).insert (pathComponents p)) =
      (if (pathComponents p).isEmpty then t else t.insert (pathComponents p)) := by
    intro t p
    by_cases hp : (pathComponents p).isEmpty
    · simp [hp]
    · simp only [if_neg hp]
      exact TreeNode.insert_idem _ t
  rw [hmap l1, hmap l2,
    foldl_eq_foldl_dedup _ hcomm hidem (l1.map FileDump.relative_path) TreeNode.empty,
    foldl_eq_foldl_dedup _ hcomm hidem (l2.map FileDump.relative_path) TreeNode.empty]
  have hperm : (l1.map FileDump.relative_path).dedup.Perm (l2.map FileDump.relative_path).dedup := by
    rw [List.perm_ext_iff_of_nodup (List.nodup_dedup _) (List.nodup_dedup _)]
    intro a
    rw [List.mem_dedup, List.mem_dedup, ← List.mem_toFinset, h, List.mem_toFinset]
  haveI : RightCommutative
      (fun t p => if (pathComponents p).isEmpty then t else t.insert (pathComponents p)) :=
    ⟨fun b a1 a2 => hcomm b a1 a2⟩
  exact hperm.foldl_eq TreeNode.empty

/-- C10: Tree insertion is idempotent, and `build_file_tree` depends only on
the set of distinct relative paths in its input: inputs with equal path sets
render identically. -/
theorem tree_insert_idempotent_and_set_determined :
    (∀ (t : TreeNode) (cs : List String), (t.insert cs).insert cs = t.insert cs) ∧
    (∀ l1 l2 : List FileDump,
       (l1.map FileDump.relative_path).toFinset = (l2.map FileDump.relative_path).toFinset →
       build_file_tree l1 = build_file_tree l2) := by
  constructor
  · intro t cs
    exact TreeNode.insert_idem cs t
  · intro l1 l2 h
    rw [build_file_tree, build_file_tree, buildTreeRoot_eq_of_toFinset_eq l1 l2 h]

/-- C10 witness: duplicate insertion collapses on a concrete tree, and a
duplicated path list renders the same tree as its deduplication. -/
theorem tree_insert_idempotent_and_set_determined_witness :
    ((TreeNode.empty.insert ["a", "b"]).insert ["a", "b"] = TreeNode.empty.insert ["a", "b"]) ∧
    build_file_tree [⟨"a", ""⟩, ⟨"b/c", ""⟩, ⟨"a", ""⟩] =
      build_file_tree [⟨"b/c", ""⟩, ⟨"a", ""⟩] :=
  ⟨tree_insert_idempotent_and_set_determined.1 TreeNode.empty ["a", "b"],
   tree_insert_idempotent_and_set_determined.2
     [⟨"a", ""⟩, ⟨"b/c", ""⟩, ⟨"a", ""⟩] [⟨"b/c", ""⟩, ⟨"a", ""⟩] (by decide)⟩
